import Mathlib

/-!
Verification of the `SelfMap` container (src/src/index.ts).

Modelling choices (shallow embedding):

* A JavaScript object reference (a record stored in the map) is modelled by
  a `Nat` identity.  Reference equality `===` on records is equality of
  these identities.
* The current value of each record's designated field
  (`record[this.#uniqueProperty]`) is modelled by a heap `h : Nat → K`:
  `h r` is the value `r[uniqueProperty]` holds right now.  External
  mutation of a record's designated field is `Function.update h r v`.
  The key is never cached by the container, so every method that reads
  `ele[this.#uniqueProperty]` takes the current heap as an argument.
* The backing array `this.#values` is the list `values : List Nat`
  (record identities in backing-sequence order).
* The overloaded arguments of `has` and `delete` (`T | T[K]`) are the
  inductive `Arg`: `Arg.scalar k` is a runtime string/number (a key-typed
  scalar, for which `typeof v === "string" || typeof v === "number"`
  holds), `Arg.record r` is an object (a record), for which it does not.
-/

/-- The type of record identities (JavaScript object references). -/
abbrev RId : Type := Nat

/-- The heap assigning to every record the current value of its designated
field: `h r` models `r[uniqueProperty]` read at this moment. -/
abbrev Heap (K : Type) : Type := RId → K

/-- The runtime argument of the overloaded methods `has` and `delete`:
either a key-typed scalar (a string/number at runtime) or a record. -/
inductive Arg (K : Type) where
  | scalar (k : K)
  | record (r : RId)
deriving DecidableEq

/-- Model of the private method `#isKey`: `typeof value === "string" ||
typeof value === "number"` — true exactly on key-typed scalars, false on
records (objects). -/
def Arg.isKeyArg : Arg K → Bool
  | Arg.scalar _ => true
  | Arg.record _ => false

/-- The `SelfMap` container state: the backing array `#values` (record
identities in order) and the designated field name `#uniqueProperty`,
fixed at construction. -/
structure SelfMap (K : Type) where
  values : List RId
  uniqueProperty : String
deriving DecidableEq

/-- Core of method `has` in the scalar shape, on a backing array `vs`:
`vs.some(ele => ele[uniqueProperty] === k)`. -/
def hasKey [DecidableEq K] (h : Heap K) (vs : List RId) (k : K) : Bool :=
  vs.any (fun ele => h ele == k)

/-- Core of method `has` in the record shape, on a backing array `vs`:
`vs.some(ele => ele === v)` (reference equality). -/
def hasRec (vs : List RId) (v : RId) : Bool :=
  vs.any (fun ele => ele == v)

/-- Core of method `add`, as a transformation of the backing array: if no
stored record is reference-equal to `value`, then on a key collision
overwrite the slot at
`findIndex(ele => ele[uniqueProperty] === value[uniqueProperty])`,
otherwise push `value` at the end. -/
def addValues [DecidableEq K] (h : Heap K) (vs : List RId) (value : RId) : List RId :=
  if ¬ (hasRec vs value) then
    if hasKey h vs (h value) then
      vs.set (vs.findIdx (fun ele => h ele == h value)) value
    else
      vs ++ [value]
  else vs

/-- The predicate `delete` scans with, depending on the call shape: a key
match `ele[uniqueProperty] === k` in the scalar shape, a reference match
`ele === v` in the record shape. -/
def delPred [DecidableEq K] (h : Heap K) : Arg K → RId → Bool
  | Arg.scalar k => fun ele => h ele == k
  | Arg.record v => fun ele => ele == v

/-- Core of method `delete`, as a transformation of the backing array
paired with the returned value: dispatch on `#isKey`; find the index of the
first match (key match in the scalar shape, reference match in the record
shape); if none (`index === -1`) return `undefined` and leave the array
unchanged; otherwise splice out that single element and return the removed
record (scalar shape, `Sum.inl`) or the key it held (record shape,
`Sum.inr`). -/
def deleteValues [DecidableEq K] (h : Heap K) (vs : List RId) (a : Arg K) :
    List RId × Option (RId ⊕ K) :=
  match vs.findIdx? (delPred h a) with
  | none => (vs, none)
  | some index =>
      (vs.eraseIdx index,
       match a with
       | Arg.scalar _ => some (Sum.inl (vs.getD index 0))
       | Arg.record _ => some (Sum.inr (h (vs.getD index 0))))

namespace SelfMap

variable {K : Type} [DecidableEq K]

/-- Getter `size`: `this.#values.length`. -/
def size (m : SelfMap K) : Nat := m.values.length

/-- Method `has(keyOrValue)`: dispatches on `#isKey(keyOrValue)` to the
scalar core (key match) or the record core (reference match). -/
def has (h : Heap K) (m : SelfMap K) : Arg K → Bool
  | Arg.scalar k => hasKey h m.values k
  | Arg.record v => hasRec m.values v

/-- Method `add(value)`: applies the backing-array core and returns the
container itself (`return this`): in the embedding, the resulting state. -/
def add (h : Heap K) (m : SelfMap K) (value : RId) : SelfMap K :=
  { m with values := addValues h m.values value }

/-- Method `get(key)`: scan `#values` in order, return the first `ele` with
`ele[this.#uniqueProperty] === key`, else `undefined`. -/
def get (h : Heap K) (m : SelfMap K) (key : K) : Option RId :=
  m.values.find? (fun ele => h ele == key)

/-- Method `keys()`: `Iterator.from(this.#values.map(ele => ele[uniq]))`.
`Array.prototype.map` runs eagerly when `keys()` is called, so the key
values are read under the heap at call time (`callHeap`); the iterator then
walks the materialized fresh array, so the heap during iteration
(`iterHeap`) is never consulted.  The result is the full sequence the
iterator yields. -/
def keysYield (callHeap iterHeap : Heap K) (m : SelfMap K) : List K :=
  m.values.map (fun ele => callHeap ele)

/-- The sequence of current designated-field values in backing order under
heap `h` (what `keys()` materializes when called under `h`). -/
def keysList (h : Heap K) (m : SelfMap K) : List K :=
  m.values.map (fun ele => h ele)

/-- Method `entries()`: `Iterator.from(this.#values.map(ele => [ele[uniq], ele]))`.
As with `keys()`, the pairs are materialized eagerly at call time. -/
def entriesYield (callHeap iterHeap : Heap K) (m : SelfMap K) : List (K × RId) :=
  m.values.map (fun ele => (callHeap ele, ele))

/-- The sequence of (key, record) pairs in backing order under heap `h`. -/
def entriesList (h : Heap K) (m : SelfMap K) : List (K × RId) :=
  m.values.map (fun ele => (h ele, ele))

/-- Method `clear()`: `this.#values = []` (a fresh empty array replaces the
backing array; the designated field name is untouched). -/
def clear (m : SelfMap K) : SelfMap K :=
  { m with values := [] }

/-- Method `delete(keyOrValue)`: applies the backing-array core; the
result is the post-state together with the returned value
(`Sum.inl` = a record, `Sum.inr` = a key, `none` = `undefined`). -/
def delete (h : Heap K) (m : SelfMap K) (a : Arg K) : SelfMap K × Option (RId ⊕ K) :=
  ({ m with values := (deleteValues h m.values a).1 }, (deleteValues h m.values a).2)

/-- Lines written by `print()`: `console.log` renders its arguments joined
by single spaces, so `console.log(" ", ele[uniq], "=>", ele)` writes the
line `"  " ++ key ++ " => " ++ inspect ele`, where `inspect` is the
console's rendering of an object (Node's `util.inspect` form) and
`renderKey` renders a key scalar (identical under `console.log` and inside
a template literal for strings and numbers).  A nonempty map prints the
header `SelfMap(<size>) {`, one line per record, and `}`; an empty map
prints the single line `SelfMap(<size>) {}`. -/
def printLines (renderKey : K → String) (inspect : RId → String)
    (h : Heap K) (m : SelfMap K) : List String :=
  if m.values.length ≠ 0 then
    ("SelfMap(" ++ Nat.repr m.size ++ ") \x7b")
      :: (m.values.map (fun ele => "  " ++ renderKey (h ele) ++ " => " ++ inspect ele)
      ++ ["\x7d"])
  else ["SelfMap(" ++ Nat.repr m.size ++ ") \x7b\x7d"]

/-- Method `toString()`: on an empty map the string `SelfMap(<size>) {}`;
otherwise the header `SelfMap(<size>) {` plus newline, then for each record
the template-literal line `  ${key} => ${ele}` plus newline (accumulated
with `str +=` over `forEach`), then the closing `}`.  Inside a template
literal an object `ele` is rendered by JavaScript string coercion
(`String(ele)`), modelled by `strCoerce` — a different rendering from the
console's `inspect`. -/
def toStr (renderKey : K → String) (strCoerce : RId → String)
    (h : Heap K) (m : SelfMap K) : String :=
  if m.values.length = 0 then "SelfMap(" ++ Nat.repr m.size ++ ") \x7b\x7d"
  else
    (m.values.foldl
      (fun str ele => str ++ ("  " ++ renderKey (h ele) ++ " => " ++ strCoerce ele ++ "\n"))
      ("SelfMap(" ++ Nat.repr m.size ++ ") \x7b\n")) ++ "\x7d"

end SelfMap

/-- Join a list of lines into a single string with newline separators
(how a sequence of written lines reads as one block of text). -/
def joinNL : List String → String
  | [] => ""
  | [l] => l
  | l :: ls => l ++ "\n" ++ joinNL ls

/-!
Model for `values()` (claim about iterator liveness).  JavaScript arrays
are mutable objects with identity.  `values()` returns
`Iterator.from(this.#values)`: the iterator captures the identity of the
backing array, not a snapshot of its contents, and reads the array's
current contents as it advances.  `add`/`delete` mutate the current array
in place (index assignment, `push`, `splice`), while `clear()` rebinds
`this.#values` to a brand-new empty array, leaving the old array object
untouched.
-/

/-- The array heap together with the map's current backing-array
reference: `arrs` maps each array identity to its current contents, and
`cur` is the identity of the array `this.#values` currently references. -/
structure VStore (K : Type) where
  arrs : List (List RId)
  cur : Nat

/-- An array iterator as returned by `Iterator.from(this.#values)`: the
identity of the array it walks and its current position. -/
structure ArrIter where
  arr : Nat
  idx : Nat

namespace VStore

variable {K : Type} [DecidableEq K]

/-- The contents of the array `this.#values` currently references. -/
def backing (s : VStore K) : List RId := s.arrs.getD s.cur []

/-- In-place mutation of the current backing array (what index assignment,
`push` and `splice` do: same array object, new contents). -/
def withBacking (s : VStore K) (l : List RId) : VStore K :=
  { s with arrs := s.arrs.set s.cur l }

/-- Method `add` acting on the store: mutates the current array in place. -/
def add (h : Heap K) (s : VStore K) (value : RId) : VStore K :=
  s.withBacking (addValues h s.backing value)

/-- Method `delete` acting on the store: mutates the current array in
place (single-element splice) and returns the deleted key or value. -/
def delete (h : Heap K) (s : VStore K) (a : Arg K) : VStore K × Option (RId ⊕ K) :=
  (s.withBacking (deleteValues h s.backing a).1, (deleteValues h s.backing a).2)

/-- Method `clear` acting on the store: `this.#values = []` allocates a
fresh empty array and rebinds the reference; old arrays are untouched. -/
def clear (s : VStore K) : VStore K :=
  { arrs := s.arrs ++ [[]], cur := s.arrs.length }

/-- Method `values()`: an iterator over the live current backing array,
starting at position 0. -/
def valuesIter (s : VStore K) : ArrIter := ⟨s.cur, 0⟩

/-- The elements an array iterator yields when run to completion in store
`s` with no further interleaved mutation: it reads the array's current
contents from its position onwards. -/
def iterYield (s : VStore K) (it : ArrIter) : List RId :=
  (s.arrs.getD it.arr []).drop it.idx

end VStore

/-- Key uniqueness of a backing sequence under the current heap: all
stored records have pairwise-distinct designated-field values. -/
def distinctKeys [DecidableEq K] (h : Heap K) (vs : List RId) : Prop :=
  vs.Pairwise (fun a b => h a ≠ h b)

/-! Basic lemmas about the cores. -/

section CoreLemmas

variable {K : Type} [DecidableEq K]

theorem hasKey_iff (h : Heap K) (vs : List RId) (k : K) :
    hasKey h vs k = true ↔ ∃ e ∈ vs, h e = k := by
  simp [hasKey]

theorem hasRec_iff (vs : List RId) (v : RId) : hasRec vs v = true ↔ v ∈ vs := by
  simp [hasRec]

theorem addValues_of_mem (h : Heap K) {vs : List RId} {v : RId} (hv : v ∈ vs) :
    addValues h vs v = vs := by
  simp [addValues, (hasRec_iff vs v).mpr hv]

theorem mem_addValues (h : Heap K) (vs : List RId) (v : RId) : v ∈ addValues h vs v := by
  by_cases hv : hasRec vs v = true
  · rw [addValues_of_mem h ((hasRec_iff vs v).mp hv)]
    exact (hasRec_iff vs v).mp hv
  · by_cases hk : hasKey h vs (h v) = true
    · have hset : addValues h vs v = vs.set (vs.findIdx (fun ele => h ele == h v)) v := by
        simp [addValues, hv, hk]
      rw [hset]
      apply List.mem_set
      apply List.findIdx_lt_length_of_exists
      obtain ⟨e, he, hke⟩ := (hasKey_iff h vs (h v)).mp hk
      exact ⟨e, he, by simp [hke]⟩
    · have happ : addValues h vs v = vs ++ [v] := by simp [addValues, hv, hk]
      rw [happ]; simp

/-- When a predicate holds on `r`, fails on every other element, and `r` is
in the list, the first match of a scan is `r` itself. -/
theorem find?_unique_mem {α : Type} {p : α → Bool} {l : List α} {r : α}
    (hmem : r ∈ l) (hp : p r = true) (hothers : ∀ e ∈ l, e ≠ r → p e = false) :
    l.find? p = some r := by
  induction l with
  | nil => cases hmem
  | cons x xs ih =>
    by_cases hx : x = r
    · subst hx; simp [List.find?_cons, hp]
    · have hpx : p x = false := hothers x (List.mem_cons_self x xs) hx
      rw [List.find?_cons, hpx]
      have hmem' : r ∈ xs := by
        rcases List.mem_cons.mp hmem with h1 | h1
        · exact absurd h1.symm hx
        · exact h1
      exact ih hmem' (fun e he hne => hothers e (List.mem_cons_of_mem x he) hne)

/-- A scan for the first index of a match, applied to a list decomposed
around its first matching element, finds exactly the boundary position. -/
theorem findIdx?_first_of_decomp {α : Type} {p : α → Bool} (l1 : List α) (e : α)
    (l2 : List α) (he : p e = true) (h1 : ∀ x ∈ l1, p x = false) :
    (l1 ++ e :: l2).findIdx? p = some l1.length := by
  induction l1 with
  | nil => simp [he]
  | cons x xs ih =>
    have hx : p x = false := h1 x (List.mem_cons_self x xs)
    simp [hx, List.findIdx?_succ, ih (fun y hy => h1 y (List.mem_cons_of_mem x hy))]

theorem eraseIdx_at_boundary {α : Type} (l1 : List α) (e : α) (l2 : List α) :
    (l1 ++ e :: l2).eraseIdx l1.length = l1 ++ l2 := by
  rw [List.eraseIdx_append_of_length_le (Nat.le_refl _)]
  simp

theorem getD_at_boundary (l1 : List RId) (e : RId) (l2 : List RId) :
    (l1 ++ e :: l2).getD l1.length 0 = e := by
  simp [List.getD, List.getElem?_append_right (Nat.le_refl l1.length)]

/-- Whatever `delete` does, the resulting backing sequence is a sublist of
the old one (it is the old one, or the old one with one splice). -/
theorem deleteValues_sublist (h : Heap K) (vs : List RId) (a : Arg K) :
    (deleteValues h vs a).1.Sublist vs := by
  cases hf : vs.findIdx? (delPred h a) with
  | none => simp [deleteValues, hf]
  | some i =>
    cases a with
    | scalar k => simpa [deleteValues, hf] using List.eraseIdx_sublist vs i
    | record r => simpa [deleteValues, hf] using List.eraseIdx_sublist vs i

/-- `add` preserves pairwise-distinct keys: re-adding a stored reference
changes nothing, a key collision overwrites the unique slot holding that
key, and a fresh key is appended. -/
theorem distinctKeys_addValues (h : Heap K) {vs : List RId}
    (hd : distinctKeys h vs) (r : RId) : distinctKeys h (addValues h vs r) := by
  by_cases hrec : hasRec vs r = true
  · rw [addValues_of_mem h ((hasRec_iff _ _).mp hrec)]
    exact hd
  · by_cases hkey : hasKey h vs (h r) = true
    · have hset : addValues h vs r = vs.set (vs.findIdx (fun ele => h ele == h r)) r := by
        simp [addValues, hrec, hkey]
      have hex : ∃ x ∈ vs, (fun ele => h ele == h r) x = true := by
        obtain ⟨e, he, hke⟩ := (hasKey_iff h vs (h r)).mp hkey
        exact ⟨e, he, by simp [hke]⟩
      have hilt : vs.findIdx (fun ele => h ele == h r) < vs.length :=
        List.findIdx_lt_length_of_exists hex
      have hik : h vs[vs.findIdx (fun ele => h ele == h r)] = h r := by
        have := List.findIdx_getElem (p := fun ele => h ele == h r) (w := hilt)
        simpa using this
      rw [hset, distinctKeys, List.pairwise_iff_getElem]
      rw [distinctKeys, List.pairwise_iff_getElem] at hd
      intro a b ha hb hab
      simp only [List.length_set] at ha hb
      rw [List.getElem_set, List.getElem_set]
      by_cases hai : vs.findIdx (fun ele => h ele == h r) = a <;>
        by_cases hbi : vs.findIdx (fun ele => h ele == h r) = b
      · omega
      · rw [if_pos hai, if_neg hbi]
        have hva : h vs[a] = h r := by
          simp only [← hai]
          exact hik
        intro hc
        exact hd a b ha hb hab (hva.trans hc)
      · rw [if_neg hai, if_pos hbi]
        have hvb : h vs[b] = h r := by
          simp only [← hbi]
          exact hik
        intro hc
        exact hd a b ha hb hab (hc.trans hvb.symm)
      · rw [if_neg hai, if_neg hbi]
        exact hd a b ha hb hab
    · have happ : addValues h vs r = vs ++ [r] := by simp [addValues, hrec, hkey]
      rw [happ, distinctKeys, List.pairwise_append]
      refine ⟨hd, List.pairwise_singleton _ _, ?_⟩
      intro x hx y hy
      rw [List.mem_singleton] at hy
      rw [hy]
      intro hc
      exact hkey ((hasKey_iff h vs (h r)).mpr ⟨x, hx, hc⟩)

end CoreLemmas

/-! Claim theorems. -/

section Claims

variable {K : Type} [DecidableEq K]

/-- C1: Live-key lookup: if stored record `r` currently holds `oldValue` in
its designated field and it is externally mutated to `newValue`, while no
other stored record's designated field equals `oldValue` or `newValue`,
then `get newValue` returns `r` and `get oldValue` returns `undefined`,
with no re-index call (the container state `m` is unchanged); moreover
`get` always returns the first record in backing-sequence order whose
designated-field value equals the key, or `undefined` when none matches. -/
theorem C1_live_key_get (h : Heap K) (m : SelfMap K) (r : RId) (oldV newV : K)
    (hmem : r ∈ m.values)
    (hold : h r = oldV)
    (hnew : newV ≠ oldV)
    (hothers : ∀ e ∈ m.values, e ≠ r → h e ≠ oldV ∧ h e ≠ newV) :
    m.get (Function.update h r newV) newV = some r ∧
    m.get (Function.update h r newV) oldV = none ∧
    (∀ (h' : Heap K) (k : K) (x : RId), m.get h' k = some x ↔
      h' x = k ∧ ∃ l1 l2, m.values = l1 ++ x :: l2 ∧ ∀ e ∈ l1, h' e ≠ k) ∧
    (∀ (h' : Heap K) (k : K), m.get h' k = none ↔ ∀ e ∈ m.values, h' e ≠ k) := by
  refine ⟨?_, ?_, ?_, ?_⟩
  · apply find?_unique_mem hmem
    · simp [Function.update_same]
    · intro e he hne
      simp [Function.update_noteq hne, (hothers e he hne).2]
  · rw [SelfMap.get, List.find?_eq_none]
    intro e he
    by_cases he_r : e = r
    · subst he_r; simp [Function.update_same, hnew]
    · simp [Function.update_noteq he_r, (hothers e he he_r).1]
  · intro h' k x
    rw [SelfMap.get, List.find?_eq_some]
    constructor
    · rintro ⟨hpx, as, bs, hdecomp, hall⟩
      refine ⟨by simpa using hpx, as, bs, hdecomp, fun e he => by simpa using hall e he⟩
    · rintro ⟨hpx, as, bs, hdecomp, hall⟩
      refine ⟨by simpa using hpx, as, bs, hdecomp, fun e he => by simpa using hall e he⟩
  · intro h' k
    rw [SelfMap.get, List.find?_eq_none]
    constructor
    · intro hall e he; simpa using hall e he
    · intro hall e he; simpa using hall e he

/-- C1 witness: records 0,1,2 with keys 1,2,3; mutate record 1's key from
2 to 4; then `get 4` finds record 1 and `get 2` finds nothing. -/
theorem C1_live_key_get_witness :
    (SelfMap.mk [0, 1, 2] "id" : SelfMap Nat).get (Function.update (fun r => r + 1) 1 4) 4
        = some 1 ∧
    (SelfMap.mk [0, 1, 2] "id" : SelfMap Nat).get (Function.update (fun r => r + 1) 1 4) 2
        = none := by
  have H := C1_live_key_get (fun r => r + 1) (SelfMap.mk [0, 1, 2] "id") 1 2 4
    (by decide) rfl (by decide) (by decide)
  exact ⟨H.1, H.2.1⟩

/-- C4: No duplicate insert / idempotence of `add`: if some stored record
is identity-equal to `r` then `add r` leaves the backing sequence entirely
unchanged, and `add r` twice always equals a single `add r`. -/
theorem C4_add_idempotent (h : Heap K) (m : SelfMap K) (r : RId) :
    (r ∈ m.values → m.add h r = m) ∧
    (m.add h r).add h r = m.add h r := by
  constructor
  · intro hr
    cases m with
    | mk vs u => simp [SelfMap.add, addValues_of_mem h hr]
  · cases m with
    | mk vs u =>
      simp only [SelfMap.add]
      rw [addValues_of_mem h (mem_addValues h vs r)]

/-- C4 witness: re-adding the already stored record 7 changes nothing. -/
theorem C4_add_idempotent_witness :
    (SelfMap.mk [7, 8] "id" : SelfMap Nat).add (fun r => r) 7 = SelfMap.mk [7, 8] "id" := by
  exact (C4_add_idempotent (fun r => r) (SelfMap.mk [7, 8] "id") 7).1 (by decide)

/-- C5: Dual-shape `has`: on a scalar argument it reports whether some
stored record's designated-field value equals it; on a record argument it
reports identity membership; `#isKey` is true exactly on scalars; in
particular `has r` holds for every stored record `r` and `has (h r)` holds
iff some stored record currently holds that key. -/
theorem C5_has_dual_shape (h : Heap K) (m : SelfMap K) :
    (∀ k : K, m.has h (Arg.scalar k) = true ↔ ∃ e ∈ m.values, h e = k) ∧
    (∀ r : RId, m.has h (Arg.record r) = true ↔ r ∈ m.values) ∧
    (∀ k : K, (Arg.scalar k : Arg K).isKeyArg = true) ∧
    (∀ r : RId, (Arg.record r : Arg K).isKeyArg = false) ∧
    (∀ r ∈ m.values, m.has h (Arg.record r) = true) ∧
    (∀ r : RId, m.has h (Arg.scalar (h r)) = true ↔ ∃ e ∈ m.values, h e = h r) := by
  refine ⟨fun k => hasKey_iff h m.values k, fun r => hasRec_iff m.values r,
    fun _ => rfl, fun _ => rfl,
    fun r hr => (hasRec_iff m.values r).mpr hr,
    fun r => hasKey_iff h m.values (h r)⟩

/-- C5 witness: in a map holding records 5 and 6 under the identity heap,
`has` finds key 6 and record 5, `#isKey` holds on the scalar shape, and
record 5 is found by identity. -/
theorem C5_has_dual_shape_witness :
    (SelfMap.mk [5, 6] "id" : SelfMap Nat).has (fun r => r) (Arg.scalar 6) = true ∧
    (SelfMap.mk [5, 6] "id" : SelfMap Nat).has (fun r => r) (Arg.record 5) = true := by
  have H := C5_has_dual_shape (K := Nat) (fun r => r) (SelfMap.mk [5, 6] "id")
  exact ⟨(H.1 6).mpr (by decide), H.2.2.2.2.1 5 (by decide)⟩

/-- C2 counterexample: `keys()` materializes its key array eagerly when it
is called (`Array.prototype.map` runs at call time), so a mutation of a
stored record's designated field after the iterator is obtained (call-time
heap `fun x => 1`, iteration-time heap `fun x => 2`) is NOT reflected: the
iterator still yields the call-time key 1, not the iteration-time value 2
the claim requires. -/
theorem C2_keys_iteration_time_counterexample :
    (SelfMap.mk [0] "id" : SelfMap Nat).keysYield (fun x => 1) (fun x => 2) = [1] ∧
    (SelfMap.mk [0] "id" : SelfMap Nat).keysList (fun x => 2) = [2] ∧
    (SelfMap.mk [0] "id" : SelfMap Nat).keysYield (fun x => 1) (fun x => 2) ≠
      (SelfMap.mk [0] "id" : SelfMap Nat).keysList (fun x => 2) :=
  ⟨rfl, rfl, by decide⟩

/-- C2 amended: `keys()` and `entries()` yield the designated-field values
(respectively (key, record) pairs) in backing-sequence order computed at
the time the iterator is OBTAINED: the heap during iteration is
irrelevant, so external mutations between obtaining the iterator and
reaching a record are not reflected; each call materializes a fresh
sequence, independently iterable, and the entry keys agree with `keys()`. -/
theorem C2_keys_entries_call_time (h0 h1 h1' : Heap K) (m : SelfMap K) :
    m.keysYield h0 h1 = m.values.map (fun ele => h0 ele) ∧
    m.entriesYield h0 h1 = m.values.map (fun ele => (h0 ele, ele)) ∧
    m.keysYield h0 h1 = m.keysYield h0 h1' ∧
    m.entriesYield h0 h1 = m.entriesYield h0 h1' ∧
    (m.entriesYield h0 h1).map Prod.fst = m.keysYield h0 h1 ∧
    m.keysYield h0 h1 = m.keysList h0 ∧
    m.entriesYield h0 h1 = m.entriesList h0 := by
  refine ⟨rfl, rfl, rfl, rfl, ?_, rfl, rfl⟩
  simp [SelfMap.entriesYield, SelfMap.keysYield]

/-- C3: Upsert-on-collision: when the map holds `A` at position `i`, the
first position whose key is `k`, and `add B` is called with `h B = k`,
`B` not identity-equal to `A` and no stored record identity-equal to `B`,
then `B` replaces `A` at position `i` and the size is unchanged; the
result of `add` is the container itself with that one slot overwritten. -/
theorem C3_add_upsert (h : Heap K) (m : SelfMap K) (A B : RId) (k : K) (i : Nat)
    (hi : i < m.values.length)
    (hA : m.values[i]? = some A)
    (hAk : h A = k)
    (hfirst : ∀ j (hj : j < m.values.length), j < i → h m.values[j] ≠ k)
    (hBk : h B = k)
    (hBA : B ≠ A)
    (hBnotmem : B ∉ m.values) :
    m.add h B = { m with values := m.values.set i B } ∧
    (m.add h B).size = m.size := by
  have hvA : m.values[i] = A := by
    rw [List.getElem?_eq_getElem hi] at hA
    exact Option.some.inj hA
  have hmemA : A ∈ m.values := hvA ▸ List.getElem_mem hi
  have hrec : hasRec m.values B = false := by
    rw [Bool.eq_false_iff]
    intro hc
    exact hBnotmem ((hasRec_iff _ _).mp hc)
  have hkey : hasKey h m.values (h B) = true :=
    (hasKey_iff _ _ _).mpr ⟨A, hmemA, by rw [hAk, hBk]⟩
  have hfind : m.values.findIdx (fun ele => h ele == h B) = i := by
    rw [List.findIdx_eq hi]
    constructor
    · simp [hvA, hAk, hBk]
    · intro j hji
      have : h m.values[j] ≠ k := hfirst j (Nat.lt_trans hji hi) hji
      simp [hBk]
      exact this
  constructor
  · have : addValues h m.values B = m.values.set i B := by
      rw [addValues]
      simp [hrec, hkey, hfind]
    cases m with
    | mk vs u => simp_all [SelfMap.add]
  · simp [SelfMap.add, SelfMap.size, addValues, hrec, hkey]

/-- C3 witness: map [3, 4] with identity keys; record 9 is given key 4 by
the heap, colliding with stored record 4 at position 1; `add 9` overwrites
that slot and the size stays 2. -/
theorem C3_add_upsert_witness :
    (SelfMap.mk [3, 4] "id" : SelfMap Nat).add (fun r => if r = 9 then 4 else r) 9
        = SelfMap.mk [3, 9] "id" ∧
    ((SelfMap.mk [3, 4] "id" : SelfMap Nat).add (fun r => if r = 9 then 4 else r) 9).size
        = (SelfMap.mk [3, 4] "id" : SelfMap Nat).size := by
  have H := C3_add_upsert (fun r => if r = 9 then 4 else r)
    (SelfMap.mk [3, 4] "id") 4 9 4 1
    (by decide) (by decide) (by decide) (by decide) (by decide) (by decide) (by decide)
  exact ⟨H.1, H.2⟩

/-- C9: `clear` empties the records (size 0, every lookup misses) while
the designated field name is a per-instance constant: fixed by the
constructor and preserved by `clear`, `add` and `delete` (the observers
`get`, `has` and the iteration methods are pure functions of the state and
mutate nothing). -/
theorem C9_clear_frame (h : Heap K) (m : SelfMap K) :
    (m.clear).values = [] ∧
    (m.clear).size = 0 ∧
    (∀ k : K, (m.clear).get h k = none) ∧
    (m.clear).uniqueProperty = m.uniqueProperty ∧
    (∀ r : RId, (m.add h r).uniqueProperty = m.uniqueProperty) ∧
    (∀ a : Arg K, ((m.delete h a).1).uniqueProperty = m.uniqueProperty) ∧
    (∀ (vs : List RId) (u : String), (SelfMap.mk vs u : SelfMap K).uniqueProperty = u) :=
  ⟨rfl, rfl, fun _ => rfl, rfl, fun _ => rfl, fun _ => rfl, fun _ _ => rfl⟩

/-- C6: Delete dual-return and atomicity on absence: in the scalar shape,
`delete` removes the first record whose designated-field value equals the
key and returns that record; in the record shape it removes the first
stored record identity-equal to the argument and returns the
designated-field value that record held; exactly one element is spliced
out and the relative order of the rest (`l1 ++ l2`) is preserved; when no
match exists it returns `undefined` and leaves the collection unchanged. -/
theorem C6_delete_dual (h : Heap K) (m : SelfMap K) :
    (∀ (k : K) (l1 l2 : List RId) (e : RId),
        m.values = l1 ++ e :: l2 → h e = k → (∀ x ∈ l1, h x ≠ k) →
        m.delete h (Arg.scalar k) = ({ m with values := l1 ++ l2 }, some (Sum.inl e))) ∧
    (∀ (r : RId) (l1 l2 : List RId),
        m.values = l1 ++ r :: l2 → r ∉ l1 →
        m.delete h (Arg.record r) = ({ m with values := l1 ++ l2 }, some (Sum.inr (h r)))) ∧
    (∀ k : K, (∀ x ∈ m.values, h x ≠ k) → m.delete h (Arg.scalar k) = (m, none)) ∧
    (∀ r : RId, r ∉ m.values → m.delete h (Arg.record r) = (m, none)) := by
  refine ⟨?_, ?_, ?_, ?_⟩
  · intro k l1 l2 e hdec hek hl1
    have hf : m.values.findIdx? (delPred h (Arg.scalar k)) = some l1.length := by
      rw [hdec, delPred]
      exact findIdx?_first_of_decomp l1 e l2 (by simp [hek])
        (fun x hx => by simp [hl1 x hx])
    have her : m.values.eraseIdx l1.length = l1 ++ l2 := by
      rw [hdec]; exact eraseIdx_at_boundary l1 e l2
    have hg : m.values.getD l1.length 0 = e := by
      rw [hdec]; exact getD_at_boundary l1 e l2
    have hdv : deleteValues h m.values (Arg.scalar k) = (l1 ++ l2, some (Sum.inl e)) := by
      simp only [deleteValues, hf, her, hg]
    simp only [SelfMap.delete, hdv]
  · intro r l1 l2 hdec hl1
    have hf : m.values.findIdx? (delPred h (Arg.record r)) = some l1.length := by
      rw [hdec, delPred]
      exact findIdx?_first_of_decomp l1 r l2 (by simp)
        (fun x hx => by simp; exact fun hc => hl1 (hc ▸ hx))
    have her : m.values.eraseIdx l1.length = l1 ++ l2 := by
      rw [hdec]; exact eraseIdx_at_boundary l1 r l2
    have hg : m.values.getD l1.length 0 = r := by
      rw [hdec]; exact getD_at_boundary l1 r l2
    have hdv : deleteValues h m.values (Arg.record r) = (l1 ++ l2, some (Sum.inr (h r))) := by
      simp only [deleteValues, hf, her, hg]
    simp only [SelfMap.delete, hdv]
  · intro k hall
    have hf : m.values.findIdx? (delPred h (Arg.scalar k)) = none := by
      rw [List.findIdx?_eq_none_iff]
      intro x hx
      simp [delPred, hall x hx]
    simp [SelfMap.delete, deleteValues, hf]
  · intro r hr
    have hf : m.values.findIdx? (delPred h (Arg.record r)) = none := by
      rw [List.findIdx?_eq_none_iff]
      intro x hx
      simp [delPred]
      exact fun hc => hr (hc ▸ hx)
    simp [SelfMap.delete, deleteValues, hf]

/-- C6 witness: in the map [10, 20, 30] with identity keys, deleting key
20 removes record 20 and returns it, deleting record 30 removes it and
returns its key 30, and deleting the absent key 99 returns `undefined`
and changes nothing. -/
theorem C6_delete_dual_witness :
    (SelfMap.mk [10, 20, 30] "id" : SelfMap Nat).delete (fun r => r) (Arg.scalar 20)
        = (SelfMap.mk [10, 30] "id", some (Sum.inl 20)) ∧
    (SelfMap.mk [10, 20, 30] "id" : SelfMap Nat).delete (fun r => r) (Arg.record 30)
        = (SelfMap.mk [10, 20] "id", some (Sum.inr 30)) ∧
    (SelfMap.mk [10, 20, 30] "id" : SelfMap Nat).delete (fun r => r) (Arg.scalar 99)
        = (SelfMap.mk [10, 20, 30] "id", none) := by
  have H := C6_delete_dual (K := Nat) (fun r => r) (SelfMap.mk [10, 20, 30] "id")
  refine ⟨?_, ?_, ?_⟩
  · exact H.1 20 [10] [30] 20 (by decide) (by decide) (by decide)
  · exact H.2.1 30 [10, 20] [] (by decide) (by decide)
  · exact H.2.2.1 99 (by decide)

/-- C7: Key-uniqueness invariant under the container's own API: when all
stored records have pairwise-distinct designated-field values and the heap
is not mutated, the state after any single `add`, `delete` or `clear`
still has pairwise-distinct designated-field values. -/
theorem C7_key_uniqueness (h : Heap K) (m : SelfMap K)
    (hd : distinctKeys h m.values) :
    (∀ r : RId, distinctKeys h ((m.add h r).values)) ∧
    (∀ a : Arg K, distinctKeys h (((m.delete h a).1).values)) ∧
    distinctKeys h ((m.clear).values) := by
  refine ⟨fun r => distinctKeys_addValues h hd r, fun a => ?_, List.Pairwise.nil⟩
  exact List.Pairwise.sublist (deleteValues_sublist h m.values a) hd

/-- C7 witness: the map [1, 2] with identity keys has distinct keys, and
still does after adding record 5, deleting key 1, and clearing. -/
theorem C7_key_uniqueness_witness :
    distinctKeys (fun r => r) (((SelfMap.mk [1, 2] "id" : SelfMap Nat).add
      (fun r => r) 5).values) ∧
    distinctKeys (fun r => r) ((((SelfMap.mk [1, 2] "id" : SelfMap Nat).delete
      (fun r => r) (Arg.scalar 1)).1).values) ∧
    distinctKeys (fun r => r) (((SelfMap.mk [1, 2] "id" : SelfMap Nat).clear).values) := by
  have H := C7_key_uniqueness (K := Nat) (fun r => r) (SelfMap.mk [1, 2] "id")
    (by rw [distinctKeys]; decide)
  exact ⟨H.1 5, H.2.1 (Arg.scalar 1), H.2.2⟩

theorem joinNL_cons_of_ne_nil (l : String) {ls : List String} (hne : ls ≠ []) :
    joinNL (l :: ls) = l ++ "\n" ++ joinNL ls := by
  cases ls with
  | nil => exact absurd rfl hne
  | cons x xs => rfl

/-- Accumulating lines with trailing newlines and closing with a brace is
the newline-join of the individual lines followed by the brace line. -/
theorem foldl_lines (g : RId → String) (l : List RId) :
    ∀ acc : String,
      l.foldl (fun str ele => str ++ (g ele ++ "\n")) acc ++ "\x7d"
        = acc ++ joinNL (l.map g ++ ["\x7d"]) := by
  induction l with
  | nil => intro acc; simp [joinNL]
  | cons x xs ih =>
    intro acc
    rw [List.foldl_cons, ih (acc ++ (g x ++ "\n")), List.map_cons, List.cons_append,
      joinNL_cons_of_ne_nil (g x) (by simp), String.append_assoc]

/-- C8 counterexample: `print` renders each record with the console's
object inspection (`console.log(" ", key, "=>", ele)`), while `toString`
renders it with JavaScript string coercion inside a template literal
(`${ele}`, which gives `[object Object]` for a plain object), so on a
one-record container whose console form is `{ id: 1 }` the line contents
of the two renderings differ. -/
theorem C8_print_toString_counterexample :
    joinNL ((SelfMap.mk [0] "id" : SelfMap Nat).printLines Nat.repr
        (fun e => "\x7b id: 1 \x7d") (fun e => 1)) ≠
      (SelfMap.mk [0] "id" : SelfMap Nat).toStr Nat.repr
        (fun e => "[object Object]") (fun e => 1) := by
  decide

/-- C8 amended: `print` and `toString` produce the same header
`SelfMap(<size>) {`, one line per record `<key> => <record textual form>`
in backing-sequence order, and closing `}` — and their line contents
coincide exactly when the console rendering of every stored record agrees
with its string coercion (`print` uses the former, `toString` the latter);
on an empty container both render the single line `SelfMap(0) {}`. -/
theorem C8_render_agreement (renderKey : K → String) (inspect strCoerce : RId → String)
    (h : Heap K) (m : SelfMap K)
    (hagree : ∀ e ∈ m.values, inspect e = strCoerce e) :
    joinNL (m.printLines renderKey inspect h) = m.toStr renderKey strCoerce h ∧
    (m.values = [] →
      m.printLines renderKey inspect h = ["SelfMap(0) \x7b\x7d"] ∧
      m.toStr renderKey strCoerce h = "SelfMap(0) \x7b\x7d") := by
  constructor
  · by_cases hemp : m.values.length = 0
    · rw [SelfMap.printLines, SelfMap.toStr, if_neg (fun hc => hc hemp), if_pos hemp]
      rfl
    · rw [SelfMap.printLines, SelfMap.toStr, if_pos hemp, if_neg hemp]
      rw [joinNL_cons_of_ne_nil _ (by simp)]
      rw [foldl_lines (fun ele => "  " ++ renderKey (h ele) ++ " => " ++ strCoerce ele)
        m.values ("SelfMap(" ++ Nat.repr m.size ++ ") \x7b\n")]
      have hmap : m.values.map (fun ele => "  " ++ renderKey (h ele) ++ " => " ++ inspect ele)
          = m.values.map (fun ele => "  " ++ renderKey (h ele) ++ " => " ++ strCoerce ele) :=
        List.map_congr_left (fun e he => by rw [hagree e he])
      have hhead : ("SelfMap(" ++ Nat.repr m.size ++ ") \x7b") ++ "\n"
          = "SelfMap(" ++ Nat.repr m.size ++ ") \x7b\n" := by
        have hlit : (") \x7b" ++ "\n" : String) = ") \x7b\n" := rfl
        rw [String.append_assoc, hlit]
      rw [hmap, hhead]
  · intro hv
    have hlen : m.values.length = 0 := by rw [hv]; rfl
    have hsz : m.size = 0 := hlen
    constructor
    · rw [SelfMap.printLines, if_neg (fun hc => hc hlen), hsz]
      decide
    · rw [SelfMap.toStr, if_pos hlen, hsz]
      decide

/-- C8 witness: when console inspection and string coercion agree on every
stored record, `print`'s lines joined by newlines equal `toString`'s
string, and an empty container renders as the single line. -/
theorem C8_render_agreement_witness :
    joinNL ((SelfMap.mk [0] "id" : SelfMap Nat).printLines Nat.repr
        (fun e => "[object Object]") (fun e => 1)) =
      (SelfMap.mk [0] "id" : SelfMap Nat).toStr Nat.repr
        (fun e => "[object Object]") (fun e => 1) ∧
    (SelfMap.mk [] "id" : SelfMap Nat).printLines Nat.repr
        (fun e => "[object Object]") (fun e => 1) = ["SelfMap(0) \x7b\x7d"] := by
  refine ⟨?_, ?_⟩
  · exact (C8_render_agreement Nat.repr (fun e => "[object Object]")
      (fun e => "[object Object]") (fun e => 1) (SelfMap.mk [0] "id")
      (fun e he => rfl)).1
  · exact ((C8_render_agreement Nat.repr (fun e => "[object Object]")
      (fun e => "[object Object]") (fun e => 1) (SelfMap.mk [] "id")
      (fun e he => rfl)).2 rfl).1

theorem withBacking_backing (s : VStore K) (l : List RId) (hcur : s.cur < s.arrs.length) :
    (s.withBacking l).backing = l := by
  simp [VStore.withBacking, VStore.backing, List.getD, List.getElem?_set_self hcur]

/-- C10: `values()` iterates the live backing array, not a snapshot: after
`add` or `delete` the iterator obtained before the mutation yields exactly
the new contents (so a record pushed by `add` is yielded and a record
spliced out by `delete` — present exactly once — is not), while `clear()`
replaces the backing array with a brand-new one, so the old iterator still
yields the old records. -/
theorem C10_values_iterator_live (h : Heap K) (s : VStore K)
    (hcur : s.cur < s.arrs.length) :
    (∀ v : RId, (s.add h v).iterYield s.valuesIter = (s.add h v).backing ∧
        v ∈ (s.add h v).iterYield s.valuesIter) ∧
    (∀ a : Arg K, ((s.delete h a).1).iterYield s.valuesIter
        = ((s.delete h a).1).backing) ∧
    (∀ r : RId, s.backing.count r = 1 →
        r ∉ ((s.delete h (Arg.record r)).1).iterYield s.valuesIter) ∧
    (s.clear).iterYield s.valuesIter = s.backing := by
  have hyb : ∀ l : List RId, (s.withBacking l).iterYield s.valuesIter
      = (s.withBacking l).backing := by
    intro l
    simp [VStore.iterYield, VStore.valuesIter, VStore.backing, VStore.withBacking]
  refine ⟨fun v => ⟨hyb _, ?_⟩, fun a => hyb _, fun r hcount => ?_, ?_⟩
  · rw [VStore.add, hyb _, withBacking_backing s _ hcur]
    exact mem_addValues h s.backing v
  · rw [VStore.delete, hyb _, withBacking_backing s _ hcur]
    have hmem : r ∈ s.backing := List.count_pos_iff.mp (by omega)
    obtain ⟨l1, l2, hdec⟩ := List.append_of_mem hmem
    have hcnt : s.backing.count r = l1.count r + (l2.count r + 1) := by
      rw [hdec]
      simp
    have hl1 : r ∉ l1 := List.count_eq_zero.mp (by omega)
    have hl2 : r ∉ l2 := List.count_eq_zero.mp (by omega)
    have hf : s.backing.findIdx? (delPred h (Arg.record r)) = some l1.length := by
      rw [hdec, delPred]
      exact findIdx?_first_of_decomp l1 r l2 (by simp)
        (fun x hx => by simp; exact fun hc => hl1 (hc ▸ hx))
    have her : s.backing.eraseIdx l1.length = l1 ++ l2 := by
      rw [hdec]; exact eraseIdx_at_boundary l1 r l2
    simp only [deleteValues, hf, her]
    simp [hl1, hl2]
  · rw [VStore.clear, VStore.iterYield, VStore.valuesIter, VStore.backing]
    simp [List.getD, List.getElem?_append_left hcur]

/-- C10 witness: with one backing array [1, 2], an iterator obtained
before the mutation yields the pushed record 3 after `add`, no longer
yields record 2 after `delete`, and still yields [1, 2] after `clear`. -/
theorem C10_values_iterator_live_witness :
    3 ∈ ((VStore.mk [[1, 2]] 0 : VStore Nat).add (fun r => r) 3).iterYield
      (VStore.mk [[1, 2]] 0 : VStore Nat).valuesIter ∧
    2 ∉ (((VStore.mk [[1, 2]] 0 : VStore Nat).delete (fun r => r) (Arg.record 2)).1).iterYield
      (VStore.mk [[1, 2]] 0 : VStore Nat).valuesIter ∧
    ((VStore.mk [[1, 2]] 0 : VStore Nat).clear).iterYield
      (VStore.mk [[1, 2]] 0 : VStore Nat).valuesIter = [1, 2] := by
  have H := C10_values_iterator_live (K := Nat) (fun r => r)
    (VStore.mk [[1, 2]] 0) (by decide)
  refine ⟨(H.1 3).2, H.2.2.1 2 (by decide), ?_⟩
  rw [H.2.2.2]
  decide

end Claims
